import Mathlib

/-!
Shallow embedding of `genetic_algorithmCPIT.py` (classes `MineLibCPIT` and
`CPITSolverCompleto`) and verification of its natural-language specification.

Block ids are an arbitrary type `α` with decidable equality (the Python code
uses hashable ids); concrete examples use `ℕ`.  Python floats are modelled as
exact rationals `ℚ`.  Python sets are `Finset`, dicts are functions.
-/

namespace CPIT

variable {α : Type} [DecidableEq α]

/-- The data that a successfully constructed `MineLibCPIT` instance exposes to
the solver: the ordered id list and the per-id lookup dicts
(`ids`, `tonn_dict`, `dest_dict`, `val_ore_dict`, `preds_dict`).
Lookups are total functions; the solver only ever queries keys in `ids`. -/
structure Instancia (α : Type) where
  ids : List α
  tonn : α → ℚ
  dest : α → ℚ
  val : α → ℚ
  preds : α → List α

/-- `MineLibCPIT._calcular_sucessores`: `succs[p]` collects, in id order, the
blocks `b` listing `p` as a predecessor.  (The Python loop appends `b` once per
occurrence of `p` in `preds[b]`; duplicate predecessor entries would only cause
repeated, idempotent `discard` calls downstream, so the filter form is the
same relation.) -/
def sucessores (inst : Instancia α) (p : α) : List α :=
  inst.ids.filter (fun b => decide (p ∈ inst.preds b))

/-! ## `CPITSolverCompleto.verificar_factibilidade` -/

/-- The scan of `verificar_factibilidade`, with the growing `visitados` set
explicit: returns `false` at the first block having a predecessor outside
`visitados` (the Python early `return False`). -/
def verificar_aux (inst : Instancia α) : Finset α → List α → Bool
  | _, [] => true
  | vis, b :: rest =>
    if (inst.preds b).all (fun p => decide (p ∈ vis)) then
      verificar_aux inst (insert b vis) rest
    else
      false

/-- `CPITSolverCompleto.verificar_factibilidade(solucao)`. -/
def verificar_factibilidade (inst : Instancia α) (solucao : List α) : Bool :=
  verificar_aux inst ∅ solucao

/-! ## `CPITSolverCompleto.reparar_solucao` -/

/-- The inner `for p in preds` loop of `reparar_solucao`: emit, in
predecessor-list order, each predecessor not yet visited, returning the list
of newly emitted ids and the enlarged visited set. -/
def emitPreds : List α → Finset α → List α × Finset α
  | [], vis => ([], vis)
  | p :: ps, vis =>
    if p ∈ vis then
      emitPreds ps vis
    else
      let r := emitPreds ps (insert p vis)
      (p :: r.1, r.2)

/-- The outer loop of `reparar_solucao` over the input sequence, with the
`visitados` set explicit; returns the emitted (`solucao_corrigida`) suffix. -/
def reparar_go (inst : Instancia α) : Finset α → List α → List α
  | _, [] => []
  | vis, b :: rest =>
    let r := emitPreds (inst.preds b) vis
    if b ∈ r.2 then
      r.1 ++ reparar_go inst r.2 rest
    else
      (r.1 ++ [b]) ++ reparar_go inst (insert b r.2) rest

/-- `CPITSolverCompleto.reparar_solucao(solucao)`. -/
def reparar_solucao (inst : Instancia α) (solucao : List α) : List α :=
  reparar_go inst ∅ solucao

/-! ### Lemmas about `emitPreds` -/

theorem emitPreds_vis (ps : List α) (vis : Finset α) :
    (emitPreds ps vis).2 = vis ∪ ps.toFinset := by
  induction ps generalizing vis with
  | nil => simp [emitPreds]
  | cons p ps ih =>
    by_cases hp : p ∈ vis
    · rw [emitPreds, if_pos hp, ih]
      ext x
      simp only [Finset.mem_union, List.toFinset_cons, Finset.mem_insert, List.mem_toFinset]
      constructor
      · tauto
      · rintro (h | h | h) <;> simp_all
    · rw [emitPreds, if_neg hp]
      simp only [ih]
      ext x
      simp only [Finset.mem_union, Finset.mem_insert, List.toFinset_cons, List.mem_toFinset]
      tauto

theorem emitPreds_toFinset (ps : List α) (vis : Finset α) :
    (emitPreds ps vis).1.toFinset = ps.toFinset \ vis := by
  induction ps generalizing vis with
  | nil => simp [emitPreds]
  | cons p ps ih =>
    by_cases hp : p ∈ vis
    · rw [emitPreds, if_pos hp, ih]
      ext x
      simp only [Finset.mem_sdiff, List.toFinset_cons, Finset.mem_insert, List.mem_toFinset]
      constructor
      · tauto
      · rintro ⟨h | h, hv⟩
        · exact absurd (h ▸ hp) hv
        · exact ⟨h, hv⟩
    · rw [emitPreds, if_neg hp]
      simp only [List.toFinset_cons, ih]
      ext x
      simp only [Finset.mem_insert, Finset.mem_sdiff, List.mem_toFinset, Finset.mem_insert]
      by_cases hx : x = p
      · subst hx; tauto
      · tauto

theorem emitPreds_nodup (ps : List α) (vis : Finset α) :
    (emitPreds ps vis).1.Nodup := by
  induction ps generalizing vis with
  | nil => simp [emitPreds]
  | cons p ps ih =>
    by_cases hp : p ∈ vis
    · rw [emitPreds, if_pos hp]; exact ih vis
    · rw [emitPreds, if_neg hp]
      refine List.Nodup.cons ?_ (ih (insert p vis))
      intro hmem
      have := emitPreds_toFinset ps (insert p vis)
      have hp' : p ∈ (emitPreds ps (insert p vis)).1.toFinset := List.mem_toFinset.mpr hmem
      rw [this] at hp'
      simp at hp'

theorem emitPreds_all_mem (ps : List α) (vis : Finset α)
    (h : ∀ p ∈ ps, p ∈ vis) : emitPreds ps vis = ([], vis) := by
  induction ps with
  | nil => simp [emitPreds]
  | cons p ps ih =>
    rw [emitPreds, if_pos (h p (List.mem_cons_self p ps))]
    exact ih (fun q hq => h q (List.mem_cons_of_mem p hq))

/-! ### Lemmas about `reparar_go` -/

/-- Companion to `reparar_go`: the visited set after processing the whole
input list (each step visits the block's predecessors, then the block). -/
def visFinal (inst : Instancia α) : Finset α → List α → Finset α
  | vis, [] => vis
  | vis, b :: rest => visFinal inst (insert b (vis ∪ (inst.preds b).toFinset)) rest

theorem visFinal_mono (inst : Instancia α) (vis : Finset α) (l : List α) :
    vis ⊆ visFinal inst vis l := by
  induction l generalizing vis with
  | nil => simp [visFinal]
  | cons b rest ih =>
    intro x hx
    exact ih (insert b (vis ∪ (inst.preds b).toFinset)) (by simp [hx])

theorem mem_visFinal (inst : Instancia α) (vis : Finset α) (l : List α) (x : α) :
    x ∈ visFinal inst vis l ↔
      x ∈ vis ∨ ∃ b ∈ l, x = b ∨ x ∈ inst.preds b := by
  induction l generalizing vis with
  | nil => simp [visFinal]
  | cons b rest ih =>
    rw [visFinal, ih]
    simp only [Finset.mem_insert, Finset.mem_union, List.mem_toFinset, List.mem_cons]
    constructor
    · rintro ((h | h | h) | ⟨c, hc, h⟩)
      · exact Or.inr ⟨b, Or.inl rfl, Or.inl h⟩
      · exact Or.inl h
      · exact Or.inr ⟨b, Or.inl rfl, Or.inr h⟩
      · exact Or.inr ⟨c, Or.inr hc, h⟩
    · rintro (h | ⟨c, hc | hc, h⟩)
      · exact Or.inl (Or.inr (Or.inl h))
      · subst hc
        rcases h with h | h
        · exact Or.inl (Or.inl h)
        · exact Or.inl (Or.inr (Or.inr h))
      · exact Or.inr ⟨c, hc, h⟩

theorem reparar_go_toFinset (inst : Instancia α) (vis : Finset α) (l : List α) :
    (reparar_go inst vis l).toFinset = visFinal inst vis l \ vis := by
  induction l generalizing vis with
  | nil => simp [reparar_go, visFinal]
  | cons b rest ih =>
    have hv := emitPreds_vis (inst.preds b) vis
    have hf := emitPreds_toFinset (inst.preds b) vis
    by_cases hb : b ∈ (emitPreds (inst.preds b) vis).2
    · rw [reparar_go]
      simp only [hb, if_pos]
      have hins : insert b (vis ∪ (inst.preds b).toFinset)
          = (emitPreds (inst.preds b) vis).2 := by
        rw [hv]
        exact Finset.insert_eq_self.mpr (hv ▸ hb)
      rw [List.toFinset_append, ih, hf, visFinal, hins]
      have hsub : (emitPreds (inst.preds b) vis).2 ⊆
          visFinal inst (emitPreds (inst.preds b) vis).2 rest :=
        visFinal_mono inst _ rest
      ext x
      simp only [Finset.mem_union, Finset.mem_sdiff, List.mem_toFinset]
      constructor
      · rintro (⟨h1, h2⟩ | ⟨h1, h2⟩)
        · refine ⟨hsub ?_, h2⟩
          rw [hv]
          exact Finset.mem_union_right _ (List.mem_toFinset.mpr h1)
        · exact ⟨h1, fun hx => h2 (hv ▸ Finset.mem_union_left _ hx)⟩
      · rintro ⟨h1, h2⟩
        by_cases hp : x ∈ inst.preds b
        · exact Or.inl ⟨hp, h2⟩
        · refine Or.inr ⟨h1, fun hx => ?_⟩
          rw [hv] at hx
          rcases Finset.mem_union.mp hx with hx | hx
          · exact h2 hx
          · exact hp (List.mem_toFinset.mp hx)
    · rw [reparar_go]
      simp only [hb, if_neg, not_false_iff]
      have hins : insert b (vis ∪ (inst.preds b).toFinset)
          = insert b (emitPreds (inst.preds b) vis).2 := by rw [hv]
      rw [List.toFinset_append, List.toFinset_append, ih, hf, visFinal, hins]
      have hsub : insert b (emitPreds (inst.preds b) vis).2 ⊆
          visFinal inst (insert b (emitPreds (inst.preds b) vis).2) rest :=
        visFinal_mono inst _ rest
      have hbvis : b ∉ vis := fun hx => hb (hv ▸ Finset.mem_union_left _ hx)
      ext x
      simp only [Finset.mem_union, Finset.mem_sdiff, List.mem_toFinset,
        List.toFinset_cons, List.toFinset_nil, insert_emptyc_eq, Finset.mem_insert,
        Finset.mem_singleton]
      constructor
      · rintro ((⟨h1, h2⟩ | h1) | ⟨h1, h2⟩)
        · refine ⟨hsub ?_, h2⟩
          refine Finset.mem_insert_of_mem ?_
          rw [hv]
          exact Finset.mem_union_right _ (List.mem_toFinset.mpr h1)
        · refine ⟨h1 ▸ hsub (Finset.mem_insert_self b _), h1 ▸ hbvis⟩
        · exact ⟨h1, fun hx =>
            h2 (Or.inr (hv ▸ Finset.mem_union_left _ hx))⟩
      · rintro ⟨h1, h2⟩
        by_cases hxb : x = b
        · exact Or.inl (Or.inr hxb)
        · by_cases hp : x ∈ inst.preds b
          · exact Or.inl (Or.inl ⟨hp, h2⟩)
          · refine Or.inr ⟨h1, fun hx => ?_⟩
            rcases hx with hx | hx
            · exact hxb hx
            · rw [hv] at hx
              rcases Finset.mem_union.mp hx with hx | hx
              · exact h2 hx
              · exact hp (List.mem_toFinset.mp hx)

theorem reparar_go_disjoint (inst : Instancia α) (vis : Finset α) (l : List α) :
    ∀ x ∈ reparar_go inst vis l, x ∉ vis := by
  intro x hx
  have h := reparar_go_toFinset inst vis l
  have hx' : x ∈ (reparar_go inst vis l).toFinset := List.mem_toFinset.mpr hx
  rw [h] at hx'
  exact (Finset.mem_sdiff.mp hx').2

theorem reparar_go_nodup (inst : Instancia α) (vis : Finset α) (l : List α) :
    (reparar_go inst vis l).Nodup := by
  induction l generalizing vis with
  | cons b rest ih =>
    have hv := emitPreds_vis (inst.preds b) vis
    have hnd := emitPreds_nodup (inst.preds b) vis
    have hfs := emitPreds_toFinset (inst.preds b) vis
    have hmemE : ∀ x ∈ (emitPreds (inst.preds b) vis).1,
        x ∈ (emitPreds (inst.preds b) vis).2 := by
      intro x hx
      have hx' : x ∈ (emitPreds (inst.preds b) vis).1.toFinset :=
        List.mem_toFinset.mpr hx
      rw [hfs] at hx'
      rw [hv]
      exact Finset.mem_union_right _ (Finset.mem_sdiff.mp hx').1
    by_cases hb : b ∈ (emitPreds (inst.preds b) vis).2
    · rw [reparar_go]
      simp only [hb, if_pos]
      refine List.Nodup.append hnd (ih _) ?_
      intro x hx1 hx2
      exact reparar_go_disjoint inst _ rest x hx2 (hmemE x hx1)
    · rw [reparar_go]
      simp only [hb, if_neg, not_false_iff]
      refine List.Nodup.append ?_ (ih _) ?_
      · refine List.Nodup.append hnd (List.nodup_singleton b) ?_
        intro x hx1 hx2
        rw [List.mem_singleton] at hx2
        exact hb (hx2 ▸ hmemE x hx1)
      · intro x hx1 hx2
        have hx1' : x ∈ insert b (emitPreds (inst.preds b) vis).2 := by
          rcases List.mem_append.mp hx1 with hx | hx
          · exact Finset.mem_insert_of_mem (hmemE x hx)
          · rw [List.mem_singleton] at hx
            exact hx ▸ Finset.mem_insert_self x _
        exact reparar_go_disjoint inst _ rest x hx2 hx1'
  | nil => simp [reparar_go]

theorem mem_reparar_solucao (inst : Instancia α) (s : List α) (x : α) :
    x ∈ reparar_solucao inst s ↔ ∃ b ∈ s, x = b ∨ x ∈ inst.preds b := by
  rw [reparar_solucao, ← List.mem_toFinset, reparar_go_toFinset]
  simp only [Finset.sdiff_empty, mem_visFinal, Finset.not_mem_empty, false_or]

theorem reparar_go_of_feasible (inst : Instancia α) (l : List α) :
    ∀ vis : Finset α, l.Nodup → (∀ x ∈ l, x ∉ vis) →
    verificar_aux inst vis l = true → reparar_go inst vis l = l := by
  induction l with
  | nil => intro vis _ _ _; rfl
  | cons b rest ih =>
    intro vis hnd hdisj hfeas
    rw [verificar_aux] at hfeas
    by_cases hc : (inst.preds b).all (fun p => decide (p ∈ vis)) = true
    · rw [if_pos hc] at hfeas
      have hall : ∀ p ∈ inst.preds b, p ∈ vis := by
        intro p hp
        exact of_decide_eq_true (List.all_eq_true.mp hc p hp)
      have hemit := emitPreds_all_mem (inst.preds b) vis hall
      rw [reparar_go, hemit]
      have hbvis : b ∉ vis := hdisj b (List.mem_cons_self b rest)
      simp only [hbvis, if_neg, not_false_iff, List.nil_append]
      have hrest : reparar_go inst (insert b vis) rest = rest := by
        refine ih (insert b vis) (List.Nodup.of_cons hnd) ?_ hfeas
        intro x hx hins
        rcases Finset.mem_insert.mp hins with hxb | hxv
        · exact (List.nodup_cons.mp hnd).1 (hxb ▸ hx)
        · exact hdisj x (List.mem_cons_of_mem b hx) hxv
      rw [hrest]
      rfl
    · rw [if_neg hc] at hfeas
      exact absurd hfeas (by simp)

/-- Four tiny concrete instances used below: a three-block chain
`0 ← 1 ← 2` (each block the predecessor of the next). -/
def instCadeia : Instancia ℕ where
  ids := [0, 1, 2]
  tonn := fun _ => 1
  dest := fun _ => 1
  val := fun _ => 0
  preds := fun b => if b = 1 then [0] else if b = 2 then [1] else []

/-- C1 counterexample input: on the chain `0 ← 1 ← 2`, repairing the
permutation `[2, 0, 1]` yields `[1, 2, 0]`, and repairing that yields
`[0, 1, 2]`, so `repair` is not idempotent as claimed. -/
theorem reparar_nao_idempotente_contraexemplo :
    reparar_solucao instCadeia (reparar_solucao instCadeia [2, 0, 1]) ≠
      reparar_solucao instCadeia [2, 0, 1] := by decide

/-- C1 (amended): `repair(repair(s)) == repair(s)` holds exactly when the
one-pass repair already produced a feasible sequence: whenever `repair(s)`
passes `verificar_factibilidade`, repairing it again returns it unchanged
(repair is the identity on feasible duplicate-free sequences). -/
theorem reparar_idempotente_quando_factivel (inst : Instancia α) (s : List α)
    (hfeas : verificar_factibilidade inst (reparar_solucao inst s) = true) :
    reparar_solucao inst (reparar_solucao inst s) = reparar_solucao inst s :=
  reparar_go_of_feasible inst (reparar_solucao inst s) ∅
    (reparar_go_nodup inst ∅ s) (fun _ _ h => absurd h (Finset.not_mem_empty _))
    hfeas

theorem reparar_idempotente_quando_factivel_witness :
    reparar_solucao instCadeia (reparar_solucao instCadeia [0, 2, 1]) =
      reparar_solucao instCadeia [0, 2, 1] :=
  reparar_idempotente_quando_factivel instCadeia [0, 2, 1] (by decide)

/-- C2: for a loaded model (duplicate-free id list, predecessor references
inside the id set) and any permutation `s` of the full id set, `repair(s)` is
again a permutation of exactly the same id set: nothing duplicated, nothing
missing.  (Termination is definitional: `reparar_go` is structurally
recursive.) -/
theorem reparar_preserva_conjunto (inst : Instancia α) (s : List α)
    (hnd : inst.ids.Nodup)
    (hpreds : ∀ b ∈ inst.ids, ∀ p ∈ inst.preds b, p ∈ inst.ids)
    (hs : s.Perm inst.ids) :
    (reparar_solucao inst s).Perm s := by
  have hsnd : s.Nodup := hs.nodup_iff.mpr hnd
  refine List.perm_of_nodup_nodup_toFinset_eq (reparar_go_nodup inst ∅ s) hsnd ?_
  ext x
  rw [List.mem_toFinset, List.mem_toFinset, mem_reparar_solucao]
  constructor
  · rintro ⟨b, hb, rfl | hp⟩
    · exact hb
    · exact (hs.mem_iff).mpr (hpreds b (hs.mem_iff.mp hb) x hp)
  · intro hx
    exact ⟨x, hx, Or.inl rfl⟩

theorem reparar_preserva_conjunto_witness :
    (reparar_solucao instCadeia [2, 0, 1]).Perm [2, 0, 1] :=
  reparar_preserva_conjunto instCadeia [2, 0, 1] (by decide) (by decide)
    (by decide)

/-! ## `CPITSolverCompleto.calcular_vpl` -/

/-- The loop state of `calcular_vpl`: current period (`ano`, starts at 1),
ore tonnage accumulated in the current period (`ton_acumulada`), running
discounted value (`valor_total`) and the set of counted blocks
(`visitados`). -/
structure VplState (α : Type) where
  ano : ℕ
  ton_acumulada : ℚ
  valor_total : ℚ
  visitados : Finset α

/-- One iteration of the `for b in solucao` loop of `calcular_vpl`.
A block with an uncounted predecessor is passed over (the `if all(...)` guard
fails and nothing in the state changes).  Otherwise ore blocks
(`dest == 1`) earn `-0.75*ton + val`, roll the period over when
`ton_acumulada + ton > capacidade`, and accumulate their tonnage; waste
blocks earn `-0.75*ton` and touch neither the period nor the accumulator.
The cash is discounted by `(1+taxa_desconto)^(ano-1)`. -/
def vplStep (inst : Instancia α) (taxa_desconto capacidade : ℚ)
    (st : VplState α) (b : α) : VplState α :=
  if (inst.preds b).all (fun p => decide (p ∈ st.visitados)) then
    let ton := inst.tonn b
    let val := inst.val b
    if inst.dest b = 1 then
      let cash := -(3 / 4) * ton + val
      let ano := if st.ton_acumulada + ton > capacidade then st.ano + 1 else st.ano
      let ton_acumulada :=
        (if st.ton_acumulada + ton > capacidade then 0 else st.ton_acumulada) + ton
      { ano := ano
        ton_acumulada := ton_acumulada
        valor_total := st.valor_total + cash / (1 + taxa_desconto) ^ (ano - 1)
        visitados := insert b st.visitados }
    else
      let cash := -(3 / 4) * ton
      { st with
        valor_total := st.valor_total + cash / (1 + taxa_desconto) ^ (st.ano - 1)
        visitados := insert b st.visitados }
  else
    st

/-- `CPITSolverCompleto.calcular_vpl(solucao, taxa_desconto, capacidade)`
(Python defaults: `taxa_desconto=0.15`, `capacidade=10_000_000`).
The mining cost rate `0.75` is the literal in the source. -/
def calcular_vpl (inst : Instancia α) (solucao : List α)
    (taxa_desconto capacidade : ℚ) : ℚ :=
  (solucao.foldl (vplStep inst taxa_desconto capacidade)
    { ano := 1, ton_acumulada := 0, valor_total := 0, visitados := ∅ }).valor_total

/-- The spec's capacity-rollover instance: two ore blocks of tonnage 10 with
no predecessors (ore values left symbolic). -/
def instDoisBlocos (vA vB : ℚ) : Instancia ℕ where
  ids := [0, 1]
  tonn := fun _ => 10
  dest := fun _ => 1
  val := fun b => if b = 0 then vA else vB
  preds := fun _ => []

/-- C4: with capacity 15 and two ore blocks of tonnage 10, evaluating `[A,B]`
leaves A in period 1 (cash discounted by `(1+rate)^0`) and, because
`10 + 10 > 15`, advances the period before B is added, so B lands in period 2
(cash discounted by `(1+rate)^1`); the accumulator was reset before adding
B's tonnage. -/
theorem rollover_de_capacidade (taxa vA vB : ℚ) :
    (List.foldl (vplStep (instDoisBlocos vA vB) taxa 15)
        { ano := 1, ton_acumulada := 0, valor_total := 0, visitados := ∅ }
        [0, 1]).ano = 2 ∧
    (List.foldl (vplStep (instDoisBlocos vA vB) taxa 15)
        { ano := 1, ton_acumulada := 0, valor_total := 0, visitados := ∅ }
        [0, 1]).ton_acumulada = 0 + 10 ∧
    calcular_vpl (instDoisBlocos vA vB) [0, 1] taxa 15 =
      (-(3 / 4) * 10 + vA) / (1 + taxa) ^ 0 + (-(3 / 4) * 10 + vB) / (1 + taxa) ^ 1 := by
  refine ⟨?_, ?_, ?_⟩ <;>
    norm_num [calcular_vpl, vplStep, instDoisBlocos, List.foldl]

/-- The spec's four-block worked example (§8 property 7): id0 ore t10 v5,
id1 waste t10, id2 ore t10 v8, id3 ore t5 v2; chain as stated. -/
def instQuatroBlocos : Instancia ℕ where
  ids := [0, 1, 2, 3]
  tonn := fun b => if b = 3 then 5 else 10
  dest := fun b => if b = 1 then 0 else 1
  val := fun b => if b = 0 then 5 else if b = 2 then 8 else if b = 3 then 2 else 0
  preds := fun b =>
    if b = 1 then [0] else if b = 2 then [0] else if b = 3 then [1, 2] else []

/-- C5 counterexample: on the worked example the code returns exactly
`-255/23 ≈ -11.087`, which is not within `0.1` of the spec's claimed
`≈ -11.304` (the spec miscomputes block 2's cash as `0.25`). -/
theorem exemplo_quatro_blocos_contraexemplo :
    calcular_vpl instQuatroBlocos [0, 1, 2, 3] (3 / 20) 15 = -255 / 23 ∧
    ¬ |calcular_vpl instQuatroBlocos [0, 1, 2, 3] (3 / 20) 15 -
        (-11304 / 1000)| ≤ 1 / 10 := by
  have h : calcular_vpl instQuatroBlocos [0, 1, 2, 3] (3 / 20) 15 = -255 / 23 := by
    norm_num [calcular_vpl, vplStep, instQuatroBlocos, List.foldl]
  refine ⟨h, ?_⟩
  have h2 : calcular_vpl instQuatroBlocos [0, 1, 2, 3] (3 / 20) 15 -
      (-11304 / 1000) = 624 / 2875 := by
    rw [h]; norm_num
  rw [h2, abs_of_nonneg (by norm_num : (0 : ℚ) ≤ 624 / 2875)]
  norm_num

/-- C5 (amended): the per-period structure is as the spec describes — period 1
holds blocks 0 and 1 with undiscounted cash `-2.5 - 7.5 = -10`, block 2 rolls
over to period 2, block 3 stays in period 2 — but block 2's cash is
`-0.75*10 + 8 = 0.5` (the spec's `0.25` is an arithmetic slip), so the total
is `-10 + (0.5 - 1.75)/1.15 = -255/23 ≈ -11.087`, not `≈ -11.304`. -/
theorem exemplo_quatro_blocos_corrigido :
    calcular_vpl instQuatroBlocos [0, 1, 2, 3] (3 / 20) 15 =
      ((-(3 / 4) * 10 + 5) + -(3 / 4) * 10) / (1 + 3 / 20) ^ 0 +
        ((-(3 / 4) * 10 + 8) / (1 + 3 / 20) ^ 1 +
          (-(3 / 4) * 5 + 2) / (1 + 3 / 20) ^ 1) ∧
    (List.foldl (vplStep instQuatroBlocos (3 / 20) 15)
        { ano := 1, ton_acumulada := 0, valor_total := 0, visitados := ∅ }
        [0, 1, 2, 3]).ano = 2 ∧
    calcular_vpl instQuatroBlocos [0, 1, 2, 3] (3 / 20) 15 = -255 / 23 := by
  refine ⟨?_, ?_, ?_⟩ <;>
    norm_num [calcular_vpl, vplStep, instQuatroBlocos, List.foldl]

/-- C6: one step of the evaluator (i) leaves the whole state unchanged — no
cash, no period change, no tonnage, not marked counted — on a block with an
uncounted predecessor, and (ii) on a counted-predecessor waste block
(`dest ≠ 1`) adds `-0.75*ton` discounted at the current period but never
touches the period or the accumulated ore tonnage.  `calcular_vpl` is the
fold of this step over the sequence, so this holds at every position of every
sequence. -/
theorem avaliador_pula_e_esteril (inst : Instancia α) (taxa cap : ℚ)
    (st : VplState α) (b : α) :
    (¬ (inst.preds b).all (fun p => decide (p ∈ st.visitados)) = true →
      vplStep inst taxa cap st b = st) ∧
    ((inst.preds b).all (fun p => decide (p ∈ st.visitados)) = true →
      inst.dest b ≠ 1 →
      vplStep inst taxa cap st b =
        { st with
          valor_total :=
            st.valor_total + -(3 / 4) * inst.tonn b / (1 + taxa) ^ (st.ano - 1)
          visitados := insert b st.visitados }) := by
  constructor
  · intro h
    simp only [vplStep, h, if_false, Bool.false_eq_true]
  · intro h hdest
    simp only [vplStep, h, if_true, hdest, if_false]

theorem avaliador_pula_e_esteril_witness :
    vplStep instCadeia (3 / 20) 15
        { ano := 1, ton_acumulada := 0, valor_total := 0, visitados := ∅ } 1 =
      { ano := 1, ton_acumulada := 0, valor_total := 0, visitados := ∅ } ∧
    vplStep instQuatroBlocos (3 / 20) 15
        { ano := 1, ton_acumulada := 0, valor_total := 0, visitados := {0} } 1 =
      { ano := 1, ton_acumulada := 0,
        valor_total := 0 + -(3 / 4) * 10 / (1 + 3 / 20) ^ (1 - 1),
        visitados := insert 1 {0} } := by
  constructor
  · exact (avaliador_pula_e_esteril instCadeia (3 / 20) 15
      { ano := 1, ton_acumulada := 0, valor_total := 0, visitados := ∅ } 1).1
      (by decide)
  · exact (avaliador_pula_e_esteril instQuatroBlocos (3 / 20) 15
      { ano := 1, ton_acumulada := 0, valor_total := 0, visitados := {0} } 1).2
      (by decide) (by decide)

/-! ## `MineLibCPIT` loading (`__init__`, `_validar_colunas`, `_preparar_dados`) -/

/-- A pandas DataFrame as `MineLibCPIT` observes it: the set of column names,
the numeric columns' contents, and the parsed contents of the `precedentes`
column (`eval` of the bracketed list).  Failing column lookups are the
pandas/Python `KeyError`, modelled as `Except.error` carrying the column
name. -/
structure Tabela where
  cols : List String
  num : String → List ℚ
  precs : List (List ℚ)

/-- `df["c"]`: raises `KeyError c` when the column is absent. -/
def getCol (t : Tabela) (c : String) : Except String (List ℚ) :=
  if c ∈ t.cols then Except.ok (t.num c) else Except.error c

/-- `row.precedentes` over `df.iterrows()`: fails when the `precedentes`
column is absent. -/
def getPrecs (t : Tabela) : Except String (List (List ℚ)) :=
  if "precedentes" ∈ t.cols then Except.ok t.precs else Except.error "precedentes"

/-- `dict(zip(ks, vs))` with total lookup (the solver only queries ids). -/
def dictZip (ks vs : List ℚ) : ℚ → ℚ :=
  fun k => ((ks.zip vs).lookup k).getD 0

/-- The effective `_validar_colunas` (the class body defines the method twice;
Python keeps the second, which requires only `id, x, y, z, precedentes`; the
first definition, also requiring `tonn, dest, val_ore`, is dead code). -/
def validar_colunas (t : Tabela) : Except String Unit :=
  if ["id", "x", "y", "z", "precedentes"].all (fun c => decide (c ∈ t.cols)) then
    Except.ok ()
  else
    Except.error "Arquivo CSV faltando colunas"

/-- `_calcular_sucessores`: `succs[p].append(b)` raises `KeyError` when some
listed predecessor `p` is not itself an id; otherwise `succs[p]` is the list
of blocks naming `p` as predecessor. -/
def calcular_sucessores_load (ids : List ℚ) (predsl : List (ℚ × List ℚ)) :
    Except String (ℚ → List ℚ) :=
  if predsl.all (fun bp => bp.2.all (fun p => decide (p ∈ ids))) then
    Except.ok (fun p => ids.filter (fun b => decide (p ∈ (predsl.lookup b).getD [])))
  else
    Except.error "KeyError"

/-- `_preparar_dados`, in source order: `ids`, then the `tonn`/`dest`/
`val_ore` dicts (each a raw `df[...]` access that raises `KeyError` on a
missing column), then `preds_dict` and `succs_dict`.  The trailing
`self.df["tonn"] = self.df.get("tonn", 100)` default assignments (source
lines 38-40) run only afterwards and mutate only `self.df`, which nothing
downstream reads — the exposed dicts are already built — so they are modelled
as the no-op they are. -/
def preparar_dados (t : Tabela) : Except String (Instancia ℚ) := do
  let ids ← getCol t "id"
  let tonns ← getCol t "tonn"
  let dests ← getCol t "dest"
  let vals ← getCol t "val_ore"
  let precl ← getPrecs t
  let predsl := ids.zip precl
  let _ ← calcular_sucessores_load ids predsl
  Except.ok
    { ids := ids
      tonn := dictZip ids tonns
      dest := dictZip ids dests
      val := dictZip ids vals
      preds := fun k => (predsl.lookup k).getD [] }

/-- `MineLibCPIT.__init__` after `pd.read_csv`: validate, then prepare. -/
def carregar (t : Tabela) : Except String (Instancia ℚ) := do
  let _ ← validar_colunas t
  preparar_dados t

/-- A table with exactly the columns the (effective) schema check requires:
the claim says construction succeeds on it, with defaults for the rest. -/
def tabelaSemTonn : Tabela where
  cols := ["id", "x", "y", "z", "precedentes"]
  num := fun _ => [0]
  precs := [[]]

/-- C3: the schema check itself passes with only
`id, x, y, z, precedentes` present (and fails when one of them is missing),
but construction then still fails: `_preparar_dados` builds `tonn_dict` from
`df["tonn"]` *before* the default-assignment lines run, so a table without a
`tonn` column raises `KeyError: tonn` instead of being given the documented
default — the defaults are dead code for absent columns. -/
theorem carregar_keyerror_sem_tonn :
    validar_colunas tabelaSemTonn = Except.ok () ∧
    carregar tabelaSemTonn = Except.error "tonn" ∧
    validar_colunas { tabelaSemTonn with cols := ["x", "y", "z", "precedentes"] } =
      Except.error "Arquivo CSV faltando colunas" := by
  refine ⟨rfl, rfl, rfl⟩

/-! ## Genetic operators and the GA loop (`CPITSolverCompleto`) -/

/-- `sol[i], sol[j] = sol[j], sol[i]`.  The indices handed to it come from
`random.sample(range(len(sol)), 2)`, so they are distinct and in range; for
out-of-range indices (where Python would raise `IndexError`, unreachable
here) the list is returned unchanged. -/
def swapPos (l : List α) (i j : ℕ) : List α :=
  match l[i]?, l[j]? with
  | some vi, some vj => (l.set i vj).set j vi
  | _, _ => l

theorem cons_set_perm (l : List α) (j : ℕ) (vj x : α)
    (h : l[j]? = some vj) : (vj :: l.set j x).Perm (x :: l) := by
  induction l generalizing j with
  | nil => simp at h
  | cons y ys ih =>
    cases j with
    | zero =>
      simp only [List.getElem?_cons_zero, Option.some_inj] at h
      subst h
      simpa using List.Perm.swap x y ys
    | succ k =>
      simp only [List.getElem?_cons_succ] at h
      have hih := ih k h
      simp only [List.set_cons_succ]
      exact ((List.Perm.swap y vj (ys.set k x)).trans
        (List.Perm.cons y hih)).trans (List.Perm.swap x y ys)

theorem set_set_perm (l : List α) (i j : ℕ) (vi vj : α)
    (hi : l[i]? = some vi) (hj : l[j]? = some vj) :
    ((l.set i vj).set j vi).Perm l := by
  induction l generalizing i j with
  | nil => simp at hi
  | cons y ys ih =>
    cases i with
    | zero =>
      simp only [List.getElem?_cons_zero, Option.some_inj] at hi
      subst hi
      cases j with
      | zero => simp
      | succ m =>
        simp only [List.getElem?_cons_succ] at hj
        simp only [List.set_cons_zero, List.set_cons_succ]
        exact cons_set_perm ys m vj y hj
    | succ k =>
      simp only [List.getElem?_cons_succ] at hi
      cases j with
      | zero =>
        simp only [List.getElem?_cons_zero, Option.some_inj] at hj
        subst hj
        simp only [List.set_cons_succ, List.set_cons_zero]
        exact cons_set_perm ys k vi y hi
      | succ m =>
        simp only [List.getElem?_cons_succ] at hj
        simp only [List.set_cons_succ]
        exact List.Perm.cons y (ih k m hi hj)

theorem swapPos_perm (l : List α) (i j : ℕ) : (swapPos l i j).Perm l := by
  rw [swapPos]
  cases hi : l[i]? with
  | none => exact List.Perm.refl l
  | some vi =>
    cases hj : l[j]? with
    | none => exact List.Perm.refl l
    | some vj => exact set_set_perm l i j vi vj hi hj

/-- The child construction of `crossover`:
`filho = pai1[a:b] + [x for x in pai2 if x not in pai1[a:b]]`
(`pai1[a:b]` is `take (b - a)` of `drop a`). -/
def filho_cruzamento (pai1 pai2 : List α) (a b : ℕ) : List α :=
  let seg := (pai1.drop a).take (b - a)
  seg ++ pai2.filter (fun x => decide (x ∉ seg))

/-- The primitive draws the solver makes on Python's process-wide `random`
module, abstracted as deterministic state transformers over an opaque
generator-state type `RS`; `seed` is `random.seed(n)`, producing the fully
determined state the module is left in.  (`np.random.seed` is also called,
but numpy randomness is never drawn from.) -/
structure RandOps (α RS : Type) where
  seed : ℕ → RS
  shuffle : List α → RS → List α × RS
  sample2 : ℕ → RS → (ℕ × ℕ) × RS
  samplePop : List (List α) → RS → (List α × List α) × RS
  rand : RS → ℚ × RS

variable {RS : Type}

/-- `CPITSolverCompleto.crossover(pai1, pai2)`:
`a, b = sorted(random.sample(range(n), 2))`, take the child, repair it if
infeasible. -/
def crossover (R : RandOps α RS) (inst : Instancia α) (pai1 pai2 : List α)
    (rs : RS) : List α × RS :=
  let n := pai1.length
  let s := R.sample2 n rs
  let a := min s.1.1 s.1.2
  let b := max s.1.1 s.1.2
  let filho := filho_cruzamento pai1 pai2 a b
  (if verificar_factibilidade inst filho then filho
   else reparar_solucao inst filho, s.2)

/-- `CPITSolverCompleto.mutacao(solucao)`: with probability `taxa_mutacao`
swap two sampled positions and repair if infeasible, otherwise return the
copy unchanged. -/
def mutacao (R : RandOps α RS) (inst : Instancia α) (taxa_mutacao : ℚ)
    (solucao : List α) (rs : RS) : List α × RS :=
  let r := R.rand rs
  if r.1 < taxa_mutacao then
    let s := R.sample2 solucao.length r.2
    let sol := swapPos solucao s.1.1 s.1.2
    (if verificar_factibilidade inst sol then sol
     else reparar_solucao inst sol, s.2)
  else
    (solucao, r.2)

/-- `CPITSolverCompleto.gerar_solucao_aleatoria()`: shuffle the id list and
repair if infeasible. -/
def gerar_solucao_aleatoria (R : RandOps α RS) (inst : Instancia α) (rs : RS) :
    List α × RS :=
  let s := R.shuffle inst.ids rs
  (if verificar_factibilidade inst s.1 then s.1
   else reparar_solucao inst s.1, s.2)

/-- `CPITSolverCompleto.gerar_populacao_inicial()`: `pop_size` independent
random solutions, drawn in list order. -/
def gerar_populacao_inicial (R : RandOps α RS) (inst : Instancia α) :
    ℕ → RS → List (List α) × RS
  | 0, rs => ([], rs)
  | n + 1, rs =>
    let s := gerar_solucao_aleatoria R inst rs
    let p := gerar_populacao_inicial R inst n s.2
    (s.1 :: p.1, p.2)

/-- The `while len(nova_pop) < self.pop_size` loop body of `executar`: sample
two parents from `pop` (`random.sample(pop, 2)`), cross them, mutate the
child, append.  One child is appended per iteration, so the loop runs exactly
`pop_size` times. -/
def novaPop (R : RandOps α RS) (inst : Instancia α) (taxa : ℚ)
    (pop : List (List α)) : ℕ → RS → List (List α) × RS
  | 0, rs => ([], rs)
  | k + 1, rs =>
    let pais := R.samplePop pop rs
    let f1 := crossover R inst pais.1.1 pais.1.2 pais.2
    let f2 := mutacao R inst taxa f1.1 f1.2
    let rest := novaPop R inst taxa pop k f2.2
    (f2.1 :: rest.1, rest.2)

/-- `np.argmax` on the fitness list: index of its first maximal entry. -/
def argmaxIdx (fitness : List ℚ) : ℕ :=
  (List.range fitness.length).foldl
    (fun best i => if fitness.getD i 0 > fitness.getD best 0 then i else best) 0

/-- Python `max` on a fitness list (junk `0` on `[]`, where Python raises). -/
def maxList (fitness : List ℚ) : ℚ :=
  fitness.foldl max (fitness.headD 0)

/-- The elitism state `executar` threads through the generations, plus the
generator state. -/
structure GAState (α RS : Type) where
  melhor_solucao : List α
  melhor_vpl : ℚ
  historico : List ℚ
  rs : RS

/-- One `for g in range(self.num_geracoes)` iteration of `executar`: build
`nova_pop` (note the source never reassigns `pop`, so parents are always
sampled from the *initial* population `pop`), evaluate it with the default
evaluator parameters (`taxa_desconto=0.15`, `capacidade=10_000_000`), update
the elite on strict improvement, and append the (possibly updated) best value
to `historico`. -/
def geracao (R : RandOps α RS) (inst : Instancia α) (pop_size : ℕ) (taxa : ℚ)
    (pop : List (List α)) (st : GAState α RS) : GAState α RS :=
  let np := novaPop R inst taxa pop pop_size st.rs
  let fitness := np.1.map (fun sol => calcular_vpl inst sol (3 / 20) 10000000)
  let melhor_gen := maxList fitness
  if melhor_gen > st.melhor_vpl then
    { melhor_solucao := np.1.getD (argmaxIdx fitness) []
      melhor_vpl := melhor_gen
      historico := st.historico ++ [melhor_gen]
      rs := np.2 }
  else
    { st with historico := st.historico ++ [st.melhor_vpl], rs := np.2 }

/-- The generation loop, run `num_geracoes` times in order. -/
def geracoes (R : RandOps α RS) (inst : Instancia α) (pop_size : ℕ) (taxa : ℚ)
    (pop : List (List α)) : ℕ → GAState α RS → GAState α RS
  | 0, st => st
  | g + 1, st =>
    geracoes R inst pop_size taxa pop g (geracao R inst pop_size taxa pop st)

/-- `CPITSolverCompleto.executar()` from a given generator state: initial
population, initial elite (`max(fitness)` / `pop[np.argmax(fitness)]`), then
the generation loop; returns `(melhor_solucao, melhor_vpl, historico)`. -/
def executar (R : RandOps α RS) (inst : Instancia α)
    (pop_size num_geracoes : ℕ) (taxa : ℚ) (rs0 : RS) :
    List α × ℚ × List ℚ :=
  let p := gerar_populacao_inicial R inst pop_size rs0
  let fitness := p.1.map (fun sol => calcular_vpl inst sol (3 / 20) 10000000)
  let st0 : GAState α RS :=
    { melhor_solucao := p.1.getD (argmaxIdx fitness) []
      melhor_vpl := maxList fitness
      historico := []
      rs := p.2 }
  let stF := geracoes R inst pop_size taxa p.1 num_geracoes st0
  (stF.melhor_solucao, stF.melhor_vpl, stF.historico)

/-- `CPITSolverCompleto(instancia, ..., seed)` followed by `.executar()`:
`__init__` runs `random.seed(seed)` (and `np.random.seed(seed)`), replacing
whatever state `_ambiente` the process-wide generator carried before
construction. -/
def executarFrom (R : RandOps α RS) (inst : Instancia α)
    (pop_size num_geracoes : ℕ) (taxa : ℚ) (seedv : ℕ) (_ambiente : RS) :
    List α × ℚ × List ℚ :=
  executar R inst pop_size num_geracoes taxa (R.seed seedv)

/-- C7: two full runs constructed with the same seed, population size,
generation count, mutation rate and block model return identical elite
sequences, identical elite values and identical per-generation history —
whatever state the process-wide generator was in before each construction,
since `__init__` re-seeds it. -/
theorem execucao_deterministica (R : RandOps α RS) (inst : Instancia α)
    (pop_size num_geracoes : ℕ) (taxa : ℚ) (seedv : ℕ) (amb1 amb2 : RS) :
    (executarFrom R inst pop_size num_geracoes taxa seedv amb1).1 =
        (executarFrom R inst pop_size num_geracoes taxa seedv amb2).1 ∧
    (executarFrom R inst pop_size num_geracoes taxa seedv amb1).2.1 =
        (executarFrom R inst pop_size num_geracoes taxa seedv amb2).2.1 ∧
    (executarFrom R inst pop_size num_geracoes taxa seedv amb1).2.2 =
        (executarFrom R inst pop_size num_geracoes taxa seedv amb2).2.2 :=
  ⟨rfl, rfl, rfl⟩

/-! ### Permutation preservation of the solution-producing operators -/

theorem perm_reparar (inst : Instancia α) (s : List α)
    (hnd : inst.ids.Nodup)
    (hpreds : ∀ b ∈ inst.ids, ∀ p ∈ inst.preds b, p ∈ inst.ids)
    (hs : s.Perm inst.ids) :
    (reparar_solucao inst s).Perm inst.ids := by
  have hsnd : s.Nodup := hs.nodup_iff.mpr hnd
  refine List.perm_of_nodup_nodup_toFinset_eq (reparar_go_nodup inst ∅ s) hnd ?_
  ext x
  rw [List.mem_toFinset, List.mem_toFinset, mem_reparar_solucao]
  constructor
  · rintro ⟨b, hb, rfl | hp⟩
    · exact hs.mem_iff.mp hb
    · exact hpreds b (hs.mem_iff.mp hb) x hp
  · intro hx
    exact ⟨x, hs.mem_iff.mpr hx, Or.inl rfl⟩

theorem filho_cruzamento_perm (inst : Instancia α) (p1 p2 : List α) (a b : ℕ)
    (hnd : inst.ids.Nodup) (h1 : p1.Perm inst.ids) (h2 : p2.Perm inst.ids) :
    (filho_cruzamento p1 p2 a b).Perm inst.ids := by
  have h1nd : p1.Nodup := h1.nodup_iff.mpr hnd
  have h2nd : p2.Nodup := h2.nodup_iff.mpr hnd
  have hseg : ((p1.drop a).take (b - a)).Sublist p1 :=
    (List.take_sublist _ _).trans (List.drop_sublist a p1)
  have hsegnd : ((p1.drop a).take (b - a)).Nodup := h1nd.sublist hseg
  refine List.perm_of_nodup_nodup_toFinset_eq ?_ hnd ?_
  · rw [filho_cruzamento]
    refine List.Nodup.append hsegnd (h2nd.filter _) ?_
    intro x hx1 hx2
    have := List.of_mem_filter hx2
    exact absurd hx1 (of_decide_eq_true this)
  · ext x
    simp only [List.mem_toFinset, filho_cruzamento, List.mem_append,
      List.mem_filter, decide_eq_true_eq]
    constructor
    · rintro (hx | ⟨hx, _⟩)
      · exact h1.mem_iff.mp (hseg.subset hx)
      · exact h2.mem_iff.mp hx
    · intro hx
      by_cases hseg' : x ∈ (p1.drop a).take (b - a)
      · exact Or.inl hseg'
      · exact Or.inr ⟨h2.mem_iff.mpr hx, hseg'⟩

/-- C9: every solution-producing operator preserves being a permutation of
the full id set — the raw segment-plus-fill crossover child, the crossover
output (with or without its repair), mutation, the shuffled-then-repaired
random solutions of the initial population, and every member of every
`nova_pop` assembled during `executar` (whose parents are drawn from a
population of such permutations). -/
theorem operadores_preservam_permutacao (R : RandOps α RS) (inst : Instancia α)
    (hnd : inst.ids.Nodup)
    (hpreds : ∀ b ∈ inst.ids, ∀ p ∈ inst.preds b, p ∈ inst.ids)
    (hshuffle : ∀ (l : List α) (rs : RS), ((R.shuffle l rs).1).Perm l)
    (hsamplePop : ∀ (pop : List (List α)) (rs : RS), pop ≠ [] →
      (R.samplePop pop rs).1.1 ∈ pop ∧ (R.samplePop pop rs).1.2 ∈ pop) :
    (∀ (p1 p2 : List α) (a b : ℕ), p1.Perm inst.ids → p2.Perm inst.ids →
      (filho_cruzamento p1 p2 a b).Perm inst.ids) ∧
    (∀ (p1 p2 : List α) (rs : RS), p1.Perm inst.ids → p2.Perm inst.ids →
      ((crossover R inst p1 p2 rs).1).Perm inst.ids) ∧
    (∀ (taxa : ℚ) (s : List α) (rs : RS), s.Perm inst.ids →
      ((mutacao R inst taxa s rs).1).Perm inst.ids) ∧
    (∀ rs : RS, ((gerar_solucao_aleatoria R inst rs).1).Perm inst.ids) ∧
    (∀ (n : ℕ) (rs : RS),
      ∀ sol ∈ (gerar_populacao_inicial R inst n rs).1, sol.Perm inst.ids) ∧
    (∀ (taxa : ℚ) (pop : List (List α)) (k : ℕ) (rs : RS), pop ≠ [] →
      (∀ sol ∈ pop, sol.Perm inst.ids) →
      ∀ sol ∈ (novaPop R inst taxa pop k rs).1, sol.Perm inst.ids) := by
  have hfix : ∀ (s : List α), s.Perm inst.ids →
      (if verificar_factibilidade inst s then s
       else reparar_solucao inst s).Perm inst.ids := by
    intro s hs
    by_cases hv : verificar_factibilidade inst s
    · rwa [if_pos hv]
    · rw [if_neg hv]
      exact perm_reparar inst s hnd hpreds hs
  have hcrossF : ∀ (p1 p2 : List α) (a b : ℕ), p1.Perm inst.ids →
      p2.Perm inst.ids → (filho_cruzamento p1 p2 a b).Perm inst.ids :=
    fun p1 p2 a b h1 h2 => filho_cruzamento_perm inst p1 p2 a b hnd h1 h2
  have hcross : ∀ (p1 p2 : List α) (rs : RS), p1.Perm inst.ids →
      p2.Perm inst.ids → ((crossover R inst p1 p2 rs).1).Perm inst.ids := by
    intro p1 p2 rs h1 h2
    exact hfix _ (hcrossF p1 p2 _ _ h1 h2)
  have hmut : ∀ (taxa : ℚ) (s : List α) (rs : RS), s.Perm inst.ids →
      ((mutacao R inst taxa s rs).1).Perm inst.ids := by
    intro taxa s rs hs
    rw [mutacao]
    by_cases hr : (R.rand rs).1 < taxa
    · simp only [hr, if_pos]
      exact hfix _ ((swapPos_perm s _ _).trans hs)
    · simp only [hr, if_neg, not_false_iff]
      exact hs
  have hger : ∀ rs : RS, ((gerar_solucao_aleatoria R inst rs).1).Perm inst.ids := by
    intro rs
    exact hfix _ (hshuffle inst.ids rs)
  have hpop : ∀ (n : ℕ) (rs : RS),
      ∀ sol ∈ (gerar_populacao_inicial R inst n rs).1, sol.Perm inst.ids := by
    intro n
    induction n with
    | zero => intro rs sol h; simp [gerar_populacao_inicial] at h
    | succ m ih =>
      intro rs sol h
      rw [gerar_populacao_inicial] at h
      rcases List.mem_cons.mp h with h | h
      · exact h ▸ hger rs
      · exact ih _ sol h
  refine ⟨hcrossF, hcross, hmut, hger, hpop, ?_⟩
  intro taxa pop k
  induction k with
  | zero => intro rs _ _ sol h; simp [novaPop] at h
  | succ m ih =>
    intro rs hne hperm sol h
    rw [novaPop] at h
    rcases List.mem_cons.mp h with h | h
    · obtain ⟨hp1, hp2⟩ := hsamplePop pop rs hne
      exact h ▸ hmut _ _ _ (hcross _ _ _ (hperm _ hp1) (hperm _ hp2))
    · exact ih _ hne hperm sol h

/-- A concrete deterministic draw structure (identity shuffle, first-two
sampling) used to exercise the generic theorems on a closed input. -/
def Rteste : RandOps ℕ Unit where
  seed := fun _ => ()
  shuffle := fun l rs => (l, rs)
  sample2 := fun _ rs => ((0, 1), rs)
  samplePop := fun pop rs => ((pop.headD [], pop.headD []), rs)
  rand := fun rs => (0, rs)

theorem operadores_preservam_permutacao_witness :
    ((crossover Rteste instCadeia [2, 0, 1] [1, 2, 0] ()).1).Perm [0, 1, 2] ∧
    ((mutacao Rteste instCadeia (1 / 20) [2, 0, 1] ()).1).Perm [0, 1, 2] := by
  have hsp : ∀ (pop : List (List ℕ)) (rs : Unit), pop ≠ [] →
      (Rteste.samplePop pop rs).1.1 ∈ pop ∧ (Rteste.samplePop pop rs).1.2 ∈ pop := by
    intro pop rs hne
    cases pop with
    | nil => exact absurd rfl hne
    | cons p t => exact ⟨List.mem_cons_self p t, List.mem_cons_self p t⟩
  obtain ⟨-, hcross, hmut, -, -, -⟩ :=
    operadores_preservam_permutacao Rteste instCadeia (by decide) (by decide)
      (fun l _ => List.Perm.refl l) hsp
  exact ⟨hcross [2, 0, 1] [1, 2, 0] () (by decide) (by decide),
    hmut (1 / 20) [2, 0, 1] () (by decide)⟩

/-! ## `CPITSolverCompleto.baseline_toposort` -/

/-- The `while len(ordem) < len(ids)` loop of `baseline_toposort`, with fuel
`len(ids) - len(ordem)` (one block is appended per iteration, so the loop
runs at most `len(ids)` times and stops early when no block is free).
`livres` lists, in id (dict-insertion) order, the blocks with an empty
remaining-predecessor set that are not yet placed; `escolha` models
`random.choice`; placing `b` discards it from the remaining sets of its
successors. -/
def baseline_go (inst : Instancia α) (escolha : List α → α) :
    ℕ → Finset α → (α → Finset α) → List α
  | 0, _, _ => []
  | n + 1, vis, rest =>
    let livres := inst.ids.filter
      (fun b => decide (rest b = ∅) && decide (b ∉ vis))
    if livres = [] then
      []
    else
      let b := escolha livres
      b :: baseline_go inst escolha n (insert b vis)
        (fun s => if s ∈ sucessores inst b then (rest s).erase b else rest s)

/-- `CPITSolverCompleto.baseline_toposort()`, with `random.choice` abstracted
as `escolha`: remaining-predecessor sets start as `set(preds[b])`, and the
produced order is scored with the default evaluator parameters
(`taxa_desconto=0.15`, `capacidade=10_000_000`). -/
def baseline_toposort (inst : Instancia α) (escolha : List α → α) :
    List α × ℚ :=
  let ordem := baseline_go inst escolha inst.ids.length ∅
    (fun b => (inst.preds b).toFinset)
  (ordem, calcular_vpl inst ordem (3 / 20) 10000000)

theorem preds_restantes_step (inst : Instancia α) (vis : Finset α)
    (rest : α → Finset α) (b : α)
    (hinv : ∀ s ∈ inst.ids, rest s = (inst.preds s).toFinset \ vis) :
    ∀ s ∈ inst.ids,
      (if s ∈ sucessores inst b then (rest s).erase b else rest s) =
        (inst.preds s).toFinset \ insert b vis := by
  intro s hs
  by_cases hsuc : s ∈ sucessores inst b
  · rw [if_pos hsuc, hinv s hs]
    ext x
    simp only [Finset.mem_erase, Finset.mem_sdiff, List.mem_toFinset,
      Finset.mem_insert]
    tauto
  · rw [if_neg hsuc, hinv s hs]
    have hbp : b ∉ inst.preds s := by
      intro hb
      exact hsuc (List.mem_filter.mpr ⟨hs, decide_eq_true hb⟩)
    ext x
    simp only [Finset.mem_sdiff, List.mem_toFinset, Finset.mem_insert]
    constructor
    · rintro ⟨h1, h2⟩
      refine ⟨h1, ?_⟩
      rintro (rfl | hx)
      · exact hbp h1
      · exact h2 hx
    · rintro ⟨h1, h2⟩
      exact ⟨h1, fun hx => h2 (Or.inr hx)⟩

theorem livre_escolhido (inst : Instancia α) (vis : Finset α)
    (rest : α → Finset α) (b : α)
    (hb : b ∈ inst.ids.filter (fun c => decide (rest c = ∅) && decide (c ∉ vis))) :
    b ∈ inst.ids ∧ rest b = ∅ ∧ b ∉ vis := by
  obtain ⟨h1, h2⟩ := List.mem_filter.mp hb
  rw [Bool.and_eq_true, decide_eq_true_eq, decide_eq_true_eq] at h2
  exact ⟨h1, h2.1, h2.2⟩

theorem baseline_go_factivel (inst : Instancia α) (escolha : List α → α)
    (hesc : ∀ l : List α, l ≠ [] → escolha l ∈ l) :
    ∀ (n : ℕ) (vis : Finset α) (rest : α → Finset α),
      (∀ s ∈ inst.ids, rest s = (inst.preds s).toFinset \ vis) →
      verificar_aux inst vis (baseline_go inst escolha n vis rest) = true := by
  intro n
  induction n with
  | zero => intro vis rest _; rfl
  | succ m ih =>
    intro vis rest hinv
    rw [baseline_go]
    by_cases hl : inst.ids.filter
        (fun b => decide (rest b = ∅) && decide (b ∉ vis)) = []
    · rw [if_pos hl]; rfl
    · rw [if_neg hl]
      obtain ⟨hbid, hbrest, hbvis⟩ :=
        livre_escolhido inst vis rest _ (hesc _ hl)
      have hpreds_vis : ∀ p ∈ inst.preds
          (escolha (inst.ids.filter
            (fun b => decide (rest b = ∅) && decide (b ∉ vis)))), p ∈ vis := by
        intro p hp
        have := hinv _ hbid
        rw [this] at hbrest
        by_contra hpv
        have : p ∈ (inst.preds _).toFinset \ vis :=
          Finset.mem_sdiff.mpr ⟨List.mem_toFinset.mpr hp, hpv⟩
        rw [hbrest] at this
        exact Finset.not_mem_empty p this
      rw [verificar_aux]
      have hcond : (inst.preds (escolha (inst.ids.filter
          (fun b => decide (rest b = ∅) && decide (b ∉ vis))))).all
          (fun p => decide (p ∈ vis)) = true :=
        List.all_eq_true.mpr (fun p hp => decide_eq_true (hpreds_vis p hp))
      rw [if_pos hcond]
      exact ih _ _ (preds_restantes_step inst vis rest _ hinv)

theorem baseline_go_completo (inst : Instancia α) (escolha : List α → α)
    (hesc : ∀ l : List α, l ≠ [] → escolha l ∈ l)
    (hpreds : ∀ b ∈ inst.ids, ∀ p ∈ inst.preds b, p ∈ inst.ids)
    (rank : α → ℕ)
    (hrank : ∀ b ∈ inst.ids, ∀ p ∈ inst.preds b, rank p < rank b) :
    ∀ (n : ℕ) (vis : Finset α) (rest : α → Finset α),
      (∀ s ∈ inst.ids, rest s = (inst.preds s).toFinset \ vis) →
      (inst.ids.toFinset \ vis).card ≤ n →
      (baseline_go inst escolha n vis rest).toFinset =
          inst.ids.toFinset \ vis ∧
        (baseline_go inst escolha n vis rest).Nodup := by
  intro n
  induction n with
  | zero =>
    intro vis rest _ hcard
    have : inst.ids.toFinset \ vis = ∅ :=
      Finset.card_eq_zero.mp (Nat.le_zero.mp hcard)
    exact ⟨by simp [baseline_go, this], by simp [baseline_go]⟩
  | succ m ih =>
    intro vis rest hinv hcard
    rw [baseline_go]
    by_cases hempty : inst.ids.toFinset \ vis = ∅
    · have hl : inst.ids.filter
          (fun b => decide (rest b = ∅) && decide (b ∉ vis)) = [] := by
        rw [List.filter_eq_nil_iff]
        intro b hb
        have hbvis : b ∈ vis := by
          by_contra hbv
          have : b ∈ inst.ids.toFinset \ vis :=
            Finset.mem_sdiff.mpr ⟨List.mem_toFinset.mpr hb, hbv⟩
          rw [hempty] at this
          exact Finset.not_mem_empty b this
        simp [hbvis]
      rw [if_pos hl]
      exact ⟨by simp [hempty], List.nodup_nil⟩
    · have hl : inst.ids.filter
          (fun b => decide (rest b = ∅) && decide (b ∉ vis)) ≠ [] := by
        obtain ⟨b, hbS⟩ := Finset.nonempty_iff_ne_empty.mpr hempty
        obtain ⟨bm, hbmS, hbmmin⟩ :=
          Finset.exists_min_image (inst.ids.toFinset \ vis) rank ⟨b, hbS⟩
        obtain ⟨hbmids, hbmvis⟩ := Finset.mem_sdiff.mp hbmS
        have hbmids' : bm ∈ inst.ids := List.mem_toFinset.mp hbmids
        have hrest : rest bm = ∅ := by
          rw [hinv bm hbmids']
          rw [Finset.eq_empty_iff_forall_not_mem]
          intro p hp
          obtain ⟨hp1, hp2⟩ := Finset.mem_sdiff.mp hp
          have hp1' : p ∈ inst.preds bm := List.mem_toFinset.mp hp1
          have hpS : p ∈ inst.ids.toFinset \ vis :=
            Finset.mem_sdiff.mpr
              ⟨List.mem_toFinset.mpr (hpreds bm hbmids' p hp1'), hp2⟩
          have h1 := hbmmin p hpS
          have h2 := hrank bm hbmids' p hp1'
          omega
        have hbm_mem : bm ∈ inst.ids.filter
            (fun b => decide (rest b = ∅) && decide (b ∉ vis)) := by
          refine List.mem_filter.mpr ⟨hbmids', ?_⟩
          rw [Bool.and_eq_true, decide_eq_true_eq, decide_eq_true_eq]
          exact ⟨hrest, hbmvis⟩
        exact List.ne_nil_of_mem hbm_mem
      rw [if_neg hl]
      obtain ⟨hbid, hbrest, hbvis⟩ :=
        livre_escolhido inst vis rest _ (hesc _ hl)
      have hbS : escolha (inst.ids.filter
          (fun b => decide (rest b = ∅) && decide (b ∉ vis))) ∈
          inst.ids.toFinset \ vis :=
        Finset.mem_sdiff.mpr ⟨List.mem_toFinset.mpr hbid, hbvis⟩
      have herase : inst.ids.toFinset \ insert (escolha (inst.ids.filter
          (fun b => decide (rest b = ∅) && decide (b ∉ vis)))) vis =
          (inst.ids.toFinset \ vis).erase (escolha (inst.ids.filter
            (fun b => decide (rest b = ∅) && decide (b ∉ vis)))) := by
        ext x
        simp only [Finset.mem_sdiff, Finset.mem_insert, Finset.mem_erase]
        tauto
      have hcard' : (inst.ids.toFinset \ insert (escolha (inst.ids.filter
          (fun b => decide (rest b = ∅) && decide (b ∉ vis)))) vis).card ≤ m := by
        rw [herase, Finset.card_erase_of_mem hbS]
        omega
      obtain ⟨ihfs, ihnd⟩ := ih _ _ (preds_restantes_step inst vis rest _ hinv)
        hcard'
      constructor
      · rw [List.toFinset_cons, ihfs, herase]
        exact Finset.insert_erase hbS
      · refine List.nodup_cons.mpr ⟨?_, ihnd⟩
        intro hmem
        have : escolha (inst.ids.filter
            (fun b => decide (rest b = ∅) && decide (b ∉ vis))) ∈
            inst.ids.toFinset \ insert (escolha (inst.ids.filter
              (fun b => decide (rest b = ∅) && decide (b ∉ vis)))) vis := by
          rw [← ihfs]
          exact List.mem_toFinset.mpr hmem
        exact (Finset.mem_sdiff.mp this).2 (Finset.mem_insert_self _ _)

/-- C8: on a block model whose predecessor references stay inside the
(duplicate-free) id set and whose precedence graph is acyclic — witnessed by
a rank function strictly increasing along predecessor edges — the baseline
topological sort terminates with a sequence containing every block id exactly
once (a permutation of the id set), and that sequence passes the feasibility
check.  This holds for every valid `random.choice` behaviour `escolha`. -/
theorem baseline_completo (inst : Instancia α) (escolha : List α → α)
    (hesc : ∀ l : List α, l ≠ [] → escolha l ∈ l)
    (hnd : inst.ids.Nodup)
    (hpreds : ∀ b ∈ inst.ids, ∀ p ∈ inst.preds b, p ∈ inst.ids)
    (rank : α → ℕ)
    (hrank : ∀ b ∈ inst.ids, ∀ p ∈ inst.preds b, rank p < rank b) :
    ((baseline_toposort inst escolha).1).Perm inst.ids ∧
      verificar_factibilidade inst (baseline_toposort inst escolha).1 = true := by
  have hinv0 : ∀ s ∈ inst.ids,
      (fun b => (inst.preds b).toFinset) s = (inst.preds s).toFinset \ ∅ := by
    intro s _
    rw [Finset.sdiff_empty]
  have hcard0 : (inst.ids.toFinset \ ∅).card ≤ inst.ids.length := by
    rw [Finset.sdiff_empty]
    exact inst.ids.toFinset_card_le
  obtain ⟨hfs, hndout⟩ := baseline_go_completo inst escolha hesc hpreds rank hrank
    inst.ids.length ∅ (fun b => (inst.preds b).toFinset) hinv0 hcard0
  constructor
  · refine List.perm_of_nodup_nodup_toFinset_eq hndout hnd ?_
    rw [baseline_toposort] at *
    rw [hfs, Finset.sdiff_empty]
  · exact baseline_go_factivel inst escolha hesc inst.ids.length ∅
      (fun b => (inst.preds b).toFinset) hinv0

/-- A concrete `random.choice` stand-in picking the first free block. -/
def escolhaCabeca : List ℕ → ℕ := fun l => l.headD 0

theorem escolhaCabeca_mem : ∀ l : List ℕ, l ≠ [] → escolhaCabeca l ∈ l := by
  intro l hl
  cases l with
  | nil => exact absurd rfl hl
  | cons a t => exact List.mem_cons_self a t

theorem baseline_completo_witness :
    ((baseline_toposort instCadeia escolhaCabeca).1).Perm [0, 1, 2] ∧
      verificar_factibilidade instCadeia
        (baseline_toposort instCadeia escolhaCabeca).1 = true :=
  baseline_completo instCadeia escolhaCabeca escolhaCabeca_mem (by decide)
    (by decide) id (by decide)

/-- C10: for every block model and every valid `random.choice` behaviour —
with no acyclicity assumption at all, so in particular for cyclic precedence
graphs, where the returned order is a (possibly strict) subset of the id
set — the sequence returned by `baseline_toposort` satisfies
`verificar_factibilidade`: a block is only ever placed once its
remaining-predecessor set is empty, i.e. all its predecessors are already
placed. -/
theorem baseline_sempre_factivel (inst : Instancia α) (escolha : List α → α)
    (hesc : ∀ l : List α, l ≠ [] → escolha l ∈ l) :
    verificar_factibilidade inst (baseline_toposort inst escolha).1 = true :=
  baseline_go_factivel inst escolha hesc inst.ids.length ∅
    (fun b => (inst.preds b).toFinset)
    (fun s _ => Finset.sdiff_empty.symm)

/-- A two-block cycle (`0` and `1` each other's predecessor): the baseline
places nothing, and the empty order is (vacuously) feasible. -/
def instCiclo : Instancia ℕ where
  ids := [0, 1]
  tonn := fun _ => 1
  dest := fun _ => 1
  val := fun _ => 0
  preds := fun b => if b = 0 then [1] else if b = 1 then [0] else []

theorem baseline_sempre_factivel_witness :
    verificar_factibilidade instCiclo
      (baseline_toposort instCiclo escolhaCabeca).1 = true :=
  baseline_sempre_factivel instCiclo escolhaCabeca escolhaCabeca_mem
